import Mathlib

/-!
Shallow embedding of `src/ecc_bitcoin_jacobi.js`.

The source manipulates arbitrary-precision signed integers through the
BigInteger.js library, whose `mod` and `divmod` are truncated (the remainder
carries the sign of the dividend) and whose `sign` field is `true` exactly on
negative values.  Integers are therefore modelled as `Int`, the `mod` of the
source as `Int.tmod`, and the `if (v.sign) v = v.add(p)` renormalization as
`normMod` below.  Loops of the source are modelled as fuel-indexed structural
recursions; in every case a fuel bound derived from the loop arguments is
shown to be sufficient, so the fuel never changes the computed value.
-/

/-- Renormalization step of the source: truncated `mod`, then add the modulus
back when the result is negative.  This follows every modular subtraction in
`ECcurve.double` and `ECcurve.add`. -/
def normMod (a p : Int) : Int :=
  let r := a.tmod p
  if r < 0 then r + p else r

/-- Loop body of `ECCbitcoin.half_extended_gcd`.  State: `lastrem`, `rem`
(both non-negative after the initial `abs`), and the tracked Bezout
coefficients `x`, `lastx`.  The fuel argument only caps the iteration count;
`rem ≤ fuel` guarantees the cap is never hit. -/
def hegcdGo : Nat → Nat → Nat → Int → Int → Nat × Int
  | _, lastrem, 0, _, lastx => (lastrem, lastx)
  | 0, lastrem, _, _, lastx => (lastrem, lastx)
  | fuel + 1, lastrem, rem, x, lastx =>
      hegcdGo fuel rem (lastrem % rem) (lastx - (lastrem / rem : Nat) * x) x

/-- `ECCbitcoin.half_extended_gcd(aa, bb)`: iterative Euclid on
`(|aa|, |bb|)` tracking only the first Bezout coefficient.  Returns the pair
`[lastrem, lastx]` of the source. -/
def half_extended_gcd (aa bb : Int) : Nat × Int :=
  hegcdGo bb.natAbs aa.natAbs bb.natAbs 0 1

/-- `ECCbitcoin.modular_inverse(a, m)`.  The source logs a diagnostic when
`gcd ≠ 1` but computes and returns the numeric value below regardless. -/
def modular_inverse (a m : Int) : Int :=
  let temp := half_extended_gcd a m
  let inverse := temp.2.tmod m
  if inverse < 0 then inverse + m else inverse

/-- Loop body of the BigInteger.js `modPow` (binary exponentiation with a
truncated `mod` after every multiplication, early exit on a zero base), used
by `get_x`/`get_y` of the source through `z.modPow(2, p)` and
`z.modPow(3, p)`.  Fuel `e ≤ fuel` suffices. -/
def modPowGo (m : Int) : Nat → Int → Int → Nat → Int
  | _, r, _, 0 => r
  | 0, r, _, _ => r
  | fuel + 1, r, base, e =>
      if base = 0 then 0
      else modPowGo m fuel (if e % 2 = 1 then (r * base).tmod m else r)
        ((base * base).tmod m) (e / 2)

/-- BigInteger.js `base.modPow(e, m)` for a non-negative exponent. -/
def modPow (base : Int) (e : Nat) (m : Int) : Int :=
  modPowGo m e 1 (base.tmod m) e

/-- A point on an elliptic curve in the Jacobian representation of the
source: the affine point is `(x / z ^ 2, y / z ^ 3)`. -/
structure ECpoint where
  x : Int
  y : Int
  z : Int
deriving DecidableEq, Repr

/-- Curve parameters of `ECcurve`: prime modulus `p`, linear coefficient
`a`, constant coefficient `b` of `y ^ 2 = x ^ 3 + a * x + b`. -/
structure ECcurve where
  p : Int
  a : Int
  b : Int
deriving DecidableEq, Repr

/-- `ECcurve.field_mul(a, b) = a * b mod p`. -/
def ECcurve.field_mul (c : ECcurve) (a b : Int) : Int :=
  (a * b).tmod c.p

/-- `ECcurve.field_div(num, den) = num * modular_inverse(den mod p, p) mod p`. -/
def ECcurve.field_div (c : ECcurve) (num den : Int) : Int :=
  c.field_mul (num.tmod c.p) (modular_inverse (den.tmod c.p) c.p)

/-- `ECcurve.identity()`: the identity sentinel `(p, 0, 1)`. -/
def ECcurve.identity (c : ECcurve) : ECpoint :=
  ⟨c.p, 0, 1⟩

/-- `ECpoint.get_x()`: affine x coordinate `x / z ^ 2` via field division. -/
def ECcurve.get_x (c : ECcurve) (Q : ECpoint) : Int :=
  c.field_div Q.x (modPow Q.z 2 c.p)

/-- `ECpoint.get_y()`: affine y coordinate `y / z ^ 3` via field division. -/
def ECcurve.get_y (c : ECcurve) (Q : ECpoint) : Int :=
  c.field_div Q.y (modPow Q.z 3 c.p)

/-- `ECcurve.touches(Q)`: membership test `y ^ 2 ≡ x ^ 3 + a * x + b (mod p)`
on the affine coordinates of `Q`. -/
def ECcurve.touches (c : ECcurve) (Q : ECpoint) : Bool :=
  let x := c.get_x Q
  let y := c.get_y Q
  let y2 := (y * y).tmod c.p
  let x3ab := (c.field_mul ((x * x).tmod c.p + c.a) x + c.b).tmod c.p
  y2 = x3ab

/-- `ECcurve.tangent(Q)`: slope `(3 * x ^ 2 + a) / (2 * y)` of the tangent
at `Q`, by field division on the raw coordinates of `Q`. -/
def ECcurve.tangent (c : ECcurve) (Q : ECpoint) : Int :=
  c.field_div (Q.x * Q.x * 3 + c.a) (Q.y * 2)

/-- `ECcurve.double(Q)`: Jacobian doubling (Gueron-Krasnov 2013 figure 2),
with the identity sentinel returned unchanged. -/
def ECcurve.double (c : ECcurve) (Q : ECpoint) : ECpoint :=
  if Q.x = c.p then Q
  else
    let S := (Q.x * Q.y * Q.y * 4).tmod c.p
    let Z2 := Q.z * Q.z
    let Z4 := (Z2 * Z2).tmod c.p
    let M := Q.x * Q.x * 3 + c.a * Z4
    let x := normMod (M * M - S * 2) c.p
    let Y2 := Q.y * Q.y
    let y := normMod (M * (S - x) - Y2 * Y2 * 8) c.p
    let z := (Q.z * Q.y * 2).tmod c.p
    ⟨x, y, z⟩

/-- `ECcurve.add(Q1, Q2)`: Jacobian addition with the special cases of the
source evaluated in order: identity arguments, cross-multiplied equality
(delegating to doubling), vertical pair (returning the identity), then the
ordinary chord formula. -/
def ECcurve.add (c : ECcurve) (Q1 Q2 : ECpoint) : ECpoint :=
  if Q1.x = c.p then Q2
  else if Q2.x = c.p then Q1
  else
    let Q1z2 := Q1.z * Q1.z
    let Q2z2 := Q2.z * Q2.z
    let xs1 := (Q1.x * Q2z2).tmod c.p
    let xs2 := (Q2.x * Q1z2).tmod c.p
    let ys1 := (Q1.y * Q2z2 * Q2.z).tmod c.p
    let ys2 := (Q2.y * Q1z2 * Q1.z).tmod c.p
    if xs1 = xs2 then
      if ys1 = ys2 then c.double Q1
      else c.identity
    else
      let xd := normMod (xs2 - xs1) c.p
      let yd := normMod (ys2 - ys1) c.p
      let xd2 := (xd * xd).tmod c.p
      let xd3 := (xd2 * xd).tmod c.p
      let x := normMod (yd * yd - xd3 - xs1 * xd2 * 2) c.p
      let y := normMod (yd * (xs1 * xd2 - x) - ys1 * xd3) c.p
      let z := (xd * Q1.z * Q2.z).tmod c.p
      ⟨x, y, z⟩

/-- Loop body of `ECcurve.mul`: binary double-and-add, least significant bit
first, skipping the final doubling once the scalar is exhausted.  Fuel
`m ≤ fuel` suffices since the scalar halves every iteration. -/
def mulLoop (c : ECcurve) : Nat → ECpoint → ECpoint → Nat → ECpoint
  | _, R, _, 0 => R
  | 0, R, _, _ => R
  | fuel + 1, R, Q, m =>
      let R' := if m % 2 = 1 then c.add R Q else R
      let m' := m / 2
      let Q' := if m' ≠ 0 then c.double Q else Q
      mulLoop c fuel R' Q' m'

/-- `ECcurve.mul(Q, m)` for a non-negative scalar `m` (negative scalars are
unsupported by the specification). -/
def ECcurve.mul (c : ECcurve) (Q : ECpoint) (m : Nat) : ECpoint :=
  mulLoop c m c.identity Q m

/-- Hexadecimal digit characters of BigInteger.js `toString(16)`:
`0123456789abcdef` (lowercase). -/
def hexChar (d : Nat) : Char :=
  if d < 10 then Char.ofNat (48 + d) else Char.ofNat (87 + d)

/-- Digit-extraction loop of `toString(16)` for a positive value, most
significant digit first.  Fuel `n ≤ fuel` suffices. -/
def hexDigitsGo : Nat → Nat → List Char
  | _, 0 => []
  | 0, _ + 1 => []
  | fuel + 1, n + 1 => hexDigitsGo fuel ((n + 1) / 16) ++ [hexChar ((n + 1) % 16)]

/-- BigInteger.js `toString(16)` on a non-negative value: `"0"` for zero,
otherwise the hexadecimal digits without any radix marker. -/
def natToHex (n : Nat) : String :=
  if n = 0 then "0" else String.mk (hexDigitsGo n n)

/-- BigInteger.js `toString(16)` on a signed value. -/
def intToHex (i : Int) : String :=
  if i < 0 then "-" ++ natToHex i.natAbs else natToHex i.toNat

/-- `ECpoint.toString()`: the literal token for the identity sentinel, and
`"(<hex x>, <hex y>)"` on the affine coordinates otherwise. -/
def pointToString (c : ECcurve) (Q : ECpoint) : String :=
  if Q.x = c.p then "identity_point"
  else "(" ++ intToHex (c.get_x Q) ++ ", " ++ intToHex (c.get_y Q) ++ ")"

/-- The reference curve `ECCbitcoin.secp256k1`: `p = 2 ^ 256 - 2 ^ 32 - 977`,
`a = 0`, `b = 7`. -/
def secp256k1 : ECcurve :=
  { p := 0xFFFFFFFFFFFFFFFFFFFFFFFFFFFFFFFFFFFFFFFFFFFFFFFFFFFFFFFEFFFFFC2F
    a := 0
    b := 7 }

/-- Order `n` of the reference generator, `ECCbitcoin.secp256k1.n`. -/
def secp256k1_n : Nat :=
  0xFFFFFFFFFFFFFFFFFFFFFFFFFFFFFFFEBAAEDCE6AF48A03BBFD25E8CD0364141

/-- The reference generator `ECCbitcoin.secp256k1.G`, a Jacobian point with
`z = 1`. -/
def secp256k1_G : ECpoint :=
  ⟨0x79BE667EF9DCBBAC55A06295CE870B07029BFCDB2DCE28D959F2815B16F81798,
   0x483ADA7726A3C4655DA4FBFC0E1108A8FD17B448A68554199C47D08FFB10D4B8,
   1⟩

/-! ### Helper lemmas on truncated mod and the renormalization step -/

theorem tmod_emod (a p : Int) : a.tmod p % p = a % p := by
  rw [Int.tmod_def, Int.sub_eq_add_neg, ← Int.mul_neg, Int.add_mul_emod_self_left]

theorem neg_tmod_comm (a p : Int) : (-a).tmod p = -(a.tmod p) := by
  have h := Int.tmod_add_tdiv a p
  have h2 := Int.tmod_add_tdiv (-a) p
  rw [Int.neg_tdiv, Int.mul_neg] at h2
  linarith

theorem neg_lt_tmod (a : Int) {p : Int} (hp : 0 < p) : -p < a.tmod p := by
  rcases le_or_lt 0 a with ha | ha
  · have h := Int.tmod_nonneg p ha
    omega
  · have h1 : (-a).tmod p < p := Int.tmod_lt_of_pos _ hp
    rw [neg_tmod_comm] at h1
    omega

theorem normMod_emod (a p : Int) : normMod a p % p = a % p := by
  unfold normMod
  by_cases h : a.tmod p < 0
  · simp only [h, reduceIte]
    have h2 := Int.add_mul_emod_self_left (a.tmod p) p 1
    rw [Int.mul_one] at h2
    rw [h2, tmod_emod]
  · simp only [h, reduceIte]
    exact tmod_emod a p

theorem normMod_nonneg (a : Int) {p : Int} (hp : 0 < p) : 0 ≤ normMod a p := by
  unfold normMod
  have h1 := neg_lt_tmod a hp
  by_cases h : a.tmod p < 0 <;> simp only [h, reduceIte] <;> omega

theorem normMod_lt (a : Int) {p : Int} (hp : 0 < p) : normMod a p < p := by
  unfold normMod
  have h2 := Int.tmod_lt_of_pos a hp
  by_cases h : a.tmod p < 0 <;> simp only [h, reduceIte] <;> omega

theorem normMod_eq_emod (a : Int) {p : Int} (hp : 0 < p) : normMod a p = a % p := by
  rw [← normMod_emod a p]
  exact (Int.emod_eq_of_lt (normMod_nonneg a hp) (normMod_lt a hp)).symm

theorem normMod_le (a : Int) {p : Int} (hp : 0 < p) : normMod a p ≤ p - 1 := by
  have := normMod_lt a hp
  omega

theorem tmod_le (a : Int) {p : Int} (hp : 0 < p) : a.tmod p ≤ p - 1 := by
  have := Int.tmod_lt_of_pos a hp
  omega

theorem normMod_modEq (a p : Int) : normMod a p ≡ a [ZMOD p] :=
  normMod_emod a p

theorem tmod_modEq (a p : Int) : a.tmod p ≡ a [ZMOD p] :=
  tmod_emod a p

/-! ### Correctness of the half extended gcd and of the modular inverse -/

theorem hegcdGo_zero_rem (fuel lastrem : Nat) (x lastx : Int) :
    hegcdGo fuel lastrem 0 x lastx = (lastrem, lastx) := by
  cases fuel <;> rfl

theorem hegcdGo_succ (fuel lastrem rem : Nat) (x lastx : Int) (h : rem ≠ 0) :
    hegcdGo (fuel + 1) lastrem rem x lastx =
      hegcdGo fuel rem (lastrem % rem) (lastx - (lastrem / rem : Nat) * x) x := by
  match rem, h with
  | r + 1, _ => rfl

theorem hegcdGo_gcd (fuel : Nat) : ∀ (lastrem rem : Nat) (x lastx : Int),
    rem ≤ fuel → (hegcdGo fuel lastrem rem x lastx).1 = Nat.gcd rem lastrem := by
  induction fuel with
  | zero =>
    intro lastrem rem x lastx h
    obtain rfl : rem = 0 := by omega
    rw [hegcdGo_zero_rem, Nat.gcd_zero_left]
  | succ fuel ih =>
    intro lastrem rem x lastx h
    rcases Nat.eq_zero_or_pos rem with rfl | hpos
    · rw [hegcdGo_zero_rem, Nat.gcd_zero_left]
    · rw [hegcdGo_succ _ _ _ _ _ (Nat.pos_iff_ne_zero.mp hpos),
        ih _ _ _ _ (by have := Nat.mod_lt lastrem hpos; omega)]
      exact (Nat.gcd_rec rem lastrem).symm

theorem hegcdGo_bezout (fuel : Nat) : ∀ (lastrem rem : Nat) (x lastx : Int)
    (A B : Int), rem ≤ fuel →
    lastx * A ≡ (lastrem : Int) [ZMOD B] → x * A ≡ (rem : Int) [ZMOD B] →
    (hegcdGo fuel lastrem rem x lastx).2 * A ≡
      ((hegcdGo fuel lastrem rem x lastx).1 : Int) [ZMOD B] := by
  induction fuel with
  | zero =>
    intro lastrem rem x lastx A B h h1 h2
    obtain rfl : rem = 0 := by omega
    rw [hegcdGo_zero_rem]
    exact h1
  | succ fuel ih =>
    intro lastrem rem x lastx A B h h1 h2
    rcases Nat.eq_zero_or_pos rem with rfl | hpos
    · rw [hegcdGo_zero_rem]
      exact h1
    · rw [hegcdGo_succ _ _ _ _ _ (Nat.pos_iff_ne_zero.mp hpos)]
      apply ih _ _ _ _ _ _ (by have := Nat.mod_lt lastrem hpos; omega) h2
      have key : ((lastrem % rem : Nat) : Int) =
          (lastrem : Int) - ((lastrem / rem : Nat) : Int) * (rem : Int) := by
        have h4 : ((rem * (lastrem / rem) + lastrem % rem : Nat) : Int) =
            (lastrem : Int) := by
          exact_mod_cast congrArg (fun k : Nat => (k : Int))
            (Nat.div_add_mod lastrem rem)
        push_cast at h4 ⊢
        linarith
      have expand : (lastx - ((lastrem / rem : Nat) : Int) * x) * A =
          lastx * A - ((lastrem / rem : Nat) : Int) * (x * A) := by ring
      rw [key, expand]
      exact h1.sub (h2.mul_left _)

theorem half_extended_gcd_fst (a m : Int) :
    ((half_extended_gcd a m).1 : Nat) = Int.gcd a m := by
  unfold half_extended_gcd
  rw [hegcdGo_gcd _ _ _ _ _ (Nat.le_refl _)]
  rw [Int.gcd]
  exact Nat.gcd_comm _ _

theorem half_extended_gcd_bezout (a m : Int) (ha : 0 ≤ a) :
    (half_extended_gcd a m).2 * a ≡ ((half_extended_gcd a m).1 : Int) [ZMOD m] := by
  unfold half_extended_gcd
  apply hegcdGo_bezout _ _ _ _ _ _ _ (Nat.le_refl _)
  · rw [Int.one_mul, Int.natAbs_of_nonneg ha]
  · rw [Int.zero_mul]
    exact (Int.modEq_zero_iff_dvd.mpr (Int.dvd_natAbs.mpr dvd_rfl)).symm

theorem modular_inverse_eq_normMod (a m : Int) :
    modular_inverse a m = normMod (half_extended_gcd a m).2 m := rfl

theorem modular_inverse_correct (a m : Int) (ha : 0 ≤ a) (hm : 0 < m)
    (hg : Int.gcd a m = 1) :
    0 ≤ modular_inverse a m ∧ modular_inverse a m ≤ m - 1 ∧
    a * modular_inverse a m ≡ 1 [ZMOD m] ∧
    (∀ x : Int, 0 ≤ x → x ≤ m - 1 → a * x ≡ 1 [ZMOD m] →
      x = modular_inverse a m) ∧
    (1 < m → (a * modular_inverse a m) % m = 1) := by
  have hb := half_extended_gcd_bezout a m ha
  have hfst : ((half_extended_gcd a m).1 : Int) = 1 := by
    have := half_extended_gcd_fst a m
    rw [hg] at this
    exact_mod_cast congrArg (fun n : Nat => (n : Int)) this
  rw [hfst] at hb
  have hmain : a * modular_inverse a m ≡ 1 [ZMOD m] := by
    rw [modular_inverse_eq_normMod]
    calc a * normMod (half_extended_gcd a m).2 m
        ≡ a * (half_extended_gcd a m).2 [ZMOD m] :=
          (normMod_modEq _ m).mul_left a
      _ = (half_extended_gcd a m).2 * a := by ring
      _ ≡ 1 [ZMOD m] := hb
  have h0 : 0 ≤ modular_inverse a m := by
    rw [modular_inverse_eq_normMod]
    exact normMod_nonneg _ hm
  have h1 : modular_inverse a m ≤ m - 1 := by
    rw [modular_inverse_eq_normMod]
    have := normMod_lt (half_extended_gcd a m).2 hm
    omega
  refine ⟨h0, h1, hmain, ?_, ?_⟩
  · intro x hx0 hx1 hx
    have hcg : Int.gcd m a = 1 := by rw [Int.gcd_comm]; exact hg
    have hxx := Int.ModEq.cancel_left_div_gcd hm (hx.trans hmain.symm)
    rw [hcg] at hxx
    have hxx2 : x ≡ modular_inverse a m [ZMOD m] := by
      simpa using hxx
    have h5 := hxx2.eq
    rwa [Int.emod_eq_of_lt hx0 (by omega),
      Int.emod_eq_of_lt h0 (by omega)] at h5
  · intro hm1
    have h5 := hmain.eq
    have h6 : (1 : Int) % m = 1 := Int.emod_eq_of_lt (by omega) hm1
    rw [h6] at h5
    exact h5

/-- C1 (amended): for all integers `a ≥ 0` and `m > 0` with `gcd(a, m) = 1`,
`modular_inverse(a, m)` returns the unique `x` in `[0, m - 1]` with
`a * x ≡ 1 (mod m)`; in particular, whenever `1 < m`, the source-level check
`(a * modular_inverse(a, m)) mod m == 1` holds, and so it holds for the curve
prime `p` at every `a` in `[1, p - 1]` coprime to `p`. -/
theorem modular_inverse_spec (a m : Int) (ha : 0 ≤ a) (hm : 0 < m)
    (hg : Int.gcd a m = 1) :
    0 ≤ modular_inverse a m ∧ modular_inverse a m ≤ m - 1 ∧
    a * modular_inverse a m ≡ 1 [ZMOD m] ∧
    (∀ x : Int, 0 ≤ x → x ≤ m - 1 → a * x ≡ 1 [ZMOD m] →
      x = modular_inverse a m) ∧
    (1 < m → (a * modular_inverse a m) % m = 1) :=
  modular_inverse_correct a m ha hm hg

/-- C1 counterexample: at `a = -1`, `m = 3` we have `m > 0` and
`gcd(a, m) = 1`, yet the value returned by `modular_inverse(a, m)` is `1`,
which is not an inverse of `-1` modulo `3`: the routine inverts `|a|`, not
`a`, because `half_extended_gcd` takes absolute values first. -/
theorem modular_inverse_neg_counterexample :
    (0 : Int) < 3 ∧ Int.gcd (-1 : Int) 3 = 1 ∧
    modular_inverse (-1) 3 = 1 ∧
    ¬(((-1 : Int) * modular_inverse (-1) 3) % 3 = 1 % 3) := by decide

/-- C1 witness: the amended theorem applied at `a = 3`, `m = 7`. -/
theorem modular_inverse_spec_witness :
    modular_inverse 3 7 = 5 ∧ ((3 : Int) * modular_inverse 3 7) % 7 = 1 :=
  ⟨by decide,
    (modular_inverse_spec 3 7 (by decide) (by decide) (by decide)).2.2.2.2
      (by decide)⟩

theorem add_identity_left (c : ECcurve) (P : ECpoint) :
    c.add c.identity P = P := by
  unfold ECcurve.add ECcurve.identity
  simp

theorem add_identity_right (c : ECcurve) (P : ECpoint) (hP : P.x ≠ c.p) :
    c.add P c.identity = P := by
  unfold ECcurve.add ECcurve.identity
  simp [hP]

/-- C5: adding the identity on either side returns the other argument
unchanged, before any arithmetic: the sentinel comparison `x == p` guards
both argument positions of `ECcurve.add`. -/
theorem add_identity_left_right (c : ECcurve) (P : ECpoint) (hP : P.x ≠ c.p) :
    c.add c.identity P = P ∧ c.add P c.identity = P :=
  ⟨add_identity_left c P, add_identity_right c P hP⟩

/-- C5 witness: the theorem applied to the reference generator. -/
theorem add_identity_left_right_witness :
    secp256k1.add secp256k1.identity secp256k1_G = secp256k1_G ∧
    secp256k1.add secp256k1_G secp256k1.identity = secp256k1_G :=
  add_identity_left_right secp256k1 secp256k1_G (by decide)

/-- C6: at `a = 2`, `m = 4` the gcd is `2 ≠ 1`, yet `modular_inverse`
surfaces no failure to its caller: it returns the plain numeric value `1`
(after only logging a diagnostic), and that value is not an inverse.  The
code therefore contradicts the error contract the specification requires. -/
theorem modular_inverse_gcd_ne_one_returns_number :
    Int.gcd (2 : Int) 4 = 2 ∧ modular_inverse 2 4 = 1 ∧
    ¬(((2 : Int) * modular_inverse 2 4) % 4 = 1 % 4) := by decide

/-- Canonical-range predicate of the specification: all three coordinates
lie in `[0, p - 1]`. -/
def inRange (p : Int) (Q : ECpoint) : Prop :=
  0 ≤ Q.x ∧ Q.x ≤ p - 1 ∧ 0 ≤ Q.y ∧ Q.y ≤ p - 1 ∧ 0 ≤ Q.z ∧ Q.z ≤ p - 1

instance inRange.instDecidable (p : Int) (Q : ECpoint) :
    Decidable (inRange p Q) := by
  unfold inRange
  infer_instance

/-- C7: from canonical-range finite inputs, every coordinate of a finite
point returned by `double` or `add` lies again in `[0, p - 1]`: each
subtraction is followed by a truncated `mod p` and, when negative, an
addition of `p` before the value is stored. -/
theorem double_add_inRange (c : ECcurve) (Q1 Q2 : ECpoint) (hp : 0 < c.p)
    (h1 : inRange c.p Q1) (h2 : inRange c.p Q2)
    (hz1 : Q1.z ≠ 0) (hz2 : Q2.z ≠ 0) :
    inRange c.p (c.double Q1) ∧
    (c.add Q1 Q2 = c.identity ∨ inRange c.p (c.add Q1 Q2)) := by
  obtain ⟨hx0, hxl, hy0, hyl, hzlo, hzl⟩ := h1
  obtain ⟨kx0, kxl, ky0, kyl, kzlo, kzl⟩ := h2
  have hdouble : inRange c.p (c.double Q1) := by
    unfold ECcurve.double
    rw [if_neg (by omega)]
    simp only [inRange]
    refine ⟨normMod_nonneg _ hp, normMod_le _ hp, normMod_nonneg _ hp,
      normMod_le _ hp, ?_, tmod_le _ hp⟩
    exact Int.tmod_nonneg _ (mul_nonneg (mul_nonneg hzlo hy0) (by omega))
  refine ⟨hdouble, ?_⟩
  unfold ECcurve.add
  rw [if_neg (by omega), if_neg (by omega)]
  simp only
  split_ifs with hxs hys
  · exact Or.inr hdouble
  · exact Or.inl rfl
  · refine Or.inr ⟨normMod_nonneg _ hp, normMod_le _ hp, normMod_nonneg _ hp,
      normMod_le _ hp, ?_, tmod_le _ hp⟩
    exact Int.tmod_nonneg _
      (mul_nonneg (mul_nonneg (normMod_nonneg _ hp) hzlo) kzlo)

/-- C7 witness: the range theorem applied on a small curve. -/
theorem double_add_inRange_witness :
    inRange 5 ((ECcurve.mk 5 1 1).double ⟨0, 1, 1⟩) ∧
    ((ECcurve.mk 5 1 1).add ⟨0, 1, 1⟩ ⟨0, 4, 1⟩ = (ECcurve.mk 5 1 1).identity ∨
      inRange 5 ((ECcurve.mk 5 1 1).add ⟨0, 1, 1⟩ ⟨0, 4, 1⟩)) :=
  double_add_inRange (ECcurve.mk 5 1 1) ⟨0, 1, 1⟩ ⟨0, 4, 1⟩ (by decide)
    (by decide) (by decide) (by decide) (by decide)

theorem mulLoop_zero (c : ECcurve) (fuel : Nat) (R Q : ECpoint) :
    mulLoop c fuel R Q 0 = R := by
  cases fuel <;> rfl

theorem mulLoop_succ (c : ECcurve) (fuel : Nat) (R Q : ECpoint) (m : Nat)
    (h : m ≠ 0) :
    mulLoop c (fuel + 1) R Q m =
      mulLoop c fuel (if m % 2 = 1 then c.add R Q else R)
        (if m / 2 ≠ 0 then c.double Q else Q) (m / 2) := by
  match m, h with
  | k + 1, _ => rfl

theorem mulLoop_fuel_irrel (c : ECcurve) (fuel : Nat) :
    ∀ (fuel2 : Nat) (R Q : ECpoint) (m : Nat), m ≤ fuel → m ≤ fuel2 →
    mulLoop c fuel R Q m = mulLoop c fuel2 R Q m := by
  induction fuel with
  | zero =>
    intro fuel2 R Q m h h2
    obtain rfl : m = 0 := by omega
    rw [mulLoop_zero, mulLoop_zero]
  | succ fuel ih =>
    intro fuel2 R Q m h h2
    rcases Nat.eq_zero_or_pos m with rfl | hpos
    · rw [mulLoop_zero, mulLoop_zero]
    · obtain ⟨f2, rfl⟩ : ∃ f2, fuel2 = f2 + 1 := ⟨fuel2 - 1, by omega⟩
      rw [mulLoop_succ _ _ _ _ _ (by omega), mulLoop_succ _ _ _ _ _ (by omega)]
      exact ih f2 _ _ (m / 2) (by omega) (by omega)

/-- C8: the double-and-add loop of `mul` terminates: while nonzero the
scalar strictly decreases under the right shift, so the loop value is
independent of any iteration bound at least the scalar, and `mul(Q, 0)`
returns the identity point without any iteration. -/
theorem mul_terminates (c : ECcurve) (Q R : ECpoint) (m fuel : Nat) :
    c.mul Q 0 = c.identity ∧
    (m ≠ 0 → Nat.shiftRight m 1 < m) ∧
    (m ≤ fuel → mulLoop c fuel R Q m = mulLoop c m R Q m) := by
  refine ⟨rfl, ?_, ?_⟩
  · intro h
    show m >>> 1 < m
    rw [Nat.shiftRight_eq_div_pow]
    omega
  · intro h
    exact mulLoop_fuel_irrel c fuel m R Q m h (Nat.le_refl m)

/-! ### Formatting: the character set and the value of the hex rendering -/

/-- Lowercase hexadecimal alphabet of BigInteger.js `toString(16)`:
the sixteen digit characters `0123456789abcdef`. -/
def hexAlphabet : List Char :=
  (List.range 16).map hexChar

/-- Numeric value of one hexadecimal character. -/
def hexCharVal (ch : Char) : Nat :=
  if 97 ≤ ch.toNat then ch.toNat - 87 else ch.toNat - 48

/-- Numeric value of a most-significant-first hexadecimal digit string. -/
def fromHexDigits (l : List Char) : Nat :=
  l.foldl (fun acc ch => 16 * acc + hexCharVal ch) 0

/-- Value of a string of hexadecimal digit characters. -/
def fromHex (s : String) : Nat :=
  fromHexDigits s.data

/-- All characters of the string are lowercase hexadecimal digits; in
particular the rendering carries no radix marker and no uppercase letter. -/
def isLowerHex (s : String) : Prop :=
  ∀ ch ∈ s.data, ch ∈ hexAlphabet

instance isLowerHex.instDecidable (s : String) : Decidable (isLowerHex s) := by
  unfold isLowerHex
  infer_instance

theorem hexChar_mem_alphabet (d : Nat) (h : d < 16) : hexChar d ∈ hexAlphabet := by
  interval_cases d <;> decide

theorem hexCharVal_hexChar (d : Nat) (h : d < 16) : hexCharVal (hexChar d) = d := by
  interval_cases d <;> decide

theorem fromHexDigits_append_singleton (l : List Char) (ch : Char) :
    fromHexDigits (l ++ [ch]) = 16 * fromHexDigits l + hexCharVal ch := by
  unfold fromHexDigits
  rw [List.foldl_append]
  rfl

theorem hexDigitsGo_zero (fuel : Nat) : hexDigitsGo fuel 0 = [] := by
  cases fuel <;> rfl

theorem hexDigitsGo_succ (fuel n : Nat) (h : n ≠ 0) :
    hexDigitsGo (fuel + 1) n = hexDigitsGo fuel (n / 16) ++ [hexChar (n % 16)] := by
  match n, h with
  | k + 1, _ => rfl

theorem hexDigitsGo_mem (fuel : Nat) : ∀ n, n ≤ fuel →
    ∀ ch ∈ hexDigitsGo fuel n, ch ∈ hexAlphabet := by
  induction fuel with
  | zero =>
    intro n hn
    obtain rfl : n = 0 := by omega
    rw [hexDigitsGo_zero]
    intro ch hch
    cases hch
  | succ fuel ih =>
    intro n hn ch hch
    rcases Nat.eq_zero_or_pos n with rfl | hpos
    · rw [hexDigitsGo_zero] at hch
      cases hch
    · rw [hexDigitsGo_succ _ _ (by omega)] at hch
      rcases List.mem_append.mp hch with hch | hch
      · exact ih (n / 16) (by omega) ch hch
      · rcases List.mem_singleton.mp hch with rfl
        exact hexChar_mem_alphabet _ (Nat.mod_lt _ (by omega))

theorem hexDigitsGo_value (fuel : Nat) : ∀ n, n ≤ fuel →
    fromHexDigits (hexDigitsGo fuel n) = n := by
  induction fuel with
  | zero =>
    intro n hn
    obtain rfl : n = 0 := by omega
    rw [hexDigitsGo_zero]
    rfl
  | succ fuel ih =>
    intro n hn
    rcases Nat.eq_zero_or_pos n with rfl | hpos
    · rw [hexDigitsGo_zero]
      rfl
    · rw [hexDigitsGo_succ _ _ (by omega), fromHexDigits_append_singleton,
        ih (n / 16) (by omega), hexCharVal_hexChar _ (Nat.mod_lt _ (by omega))]
      omega

theorem modular_inverse_nonneg (a m : Int) (hm : 0 < m) :
    0 ≤ modular_inverse a m := by
  rw [modular_inverse_eq_normMod]
  exact normMod_nonneg _ hm

theorem field_div_nonneg (c : ECcurve) (num den : Int) (hp : 0 < c.p)
    (hnum : 0 ≤ num) : 0 ≤ c.field_div num den := by
  unfold ECcurve.field_div ECcurve.field_mul
  exact Int.tmod_nonneg _
    (mul_nonneg (Int.tmod_nonneg _ hnum) (modular_inverse_nonneg _ _ hp))

/-- C9: the textual form renders the identity sentinel as the literal token
`identity_point` and a finite point as the parenthesized pair of affine
coordinates; on non-negative affine values the rendering is `natToHex`,
whose output consists solely of lowercase hexadecimal digits (no `0x`
marker, no sign, no uppercase) and parses back to the rendered value. -/
theorem pointToString_format (c : ECcurve) (Q : ECpoint) (n : Nat) :
    (Q.x = c.p → pointToString c Q = "identity_point") ∧
    (Q.x ≠ c.p → pointToString c Q =
      "(" ++ intToHex (c.get_x Q) ++ ", " ++ intToHex (c.get_y Q) ++ ")") ∧
    (0 < c.p → 0 ≤ Q.x → intToHex (c.get_x Q) = natToHex (c.get_x Q).toNat) ∧
    (0 < c.p → 0 ≤ Q.y → intToHex (c.get_y Q) = natToHex (c.get_y Q).toNat) ∧
    isLowerHex (natToHex n) ∧ fromHex (natToHex n) = n := by
  refine ⟨?_, ?_, ?_, ?_, ?_, ?_⟩
  · intro h
    unfold pointToString
    rw [if_pos h]
  · intro h
    unfold pointToString
    rw [if_neg h]
  · intro hp hx
    unfold intToHex
    rw [if_neg (by
      have h4 : 0 ≤ c.get_x Q := field_div_nonneg c Q.x (modPow Q.z 2 c.p) hp hx
      omega)]
  · intro hp hy
    unfold intToHex
    rw [if_neg (by
      have h4 : 0 ≤ c.get_y Q := field_div_nonneg c Q.y (modPow Q.z 3 c.p) hp hy
      omega)]
  · unfold natToHex
    split_ifs with h
    · decide
    · intro ch hch
      exact hexDigitsGo_mem n n (Nat.le_refl n) ch hch
  · unfold natToHex fromHex
    split_ifs with h
    · rw [h]
      decide
    · exact hexDigitsGo_value n n (Nat.le_refl n)

/-- C9 witness: the formatting theorem applied to the identity point and to
an affine point of a small curve, with the hex characterization at 3054. -/
theorem pointToString_format_witness :
    pointToString (ECcurve.mk 5 1 1) ((ECcurve.mk 5 1 1).identity) =
      "identity_point" ∧
    pointToString (ECcurve.mk 5 1 1) ⟨2, 1, 1⟩ = "(2, 1)" ∧
    isLowerHex (natToHex 3054) ∧ fromHex (natToHex 3054) = 3054 := by
  refine ⟨(pointToString_format (ECcurve.mk 5 1 1)
      ((ECcurve.mk 5 1 1).identity) 3054).1 (by decide), ?_,
    (pointToString_format (ECcurve.mk 5 1 1) ⟨2, 1, 1⟩ 3054).2.2.2.2.1,
    (pointToString_format (ECcurve.mk 5 1 1) ⟨2, 1, 1⟩ 3054).2.2.2.2.2⟩
  rw [(pointToString_format (ECcurve.mk 5 1 1) ⟨2, 1, 1⟩ 3054).2.1 (by decide)]
  decide

/-! ### Bridge to the field `ZMod q`

For a prime modulus `q` the integer computations of the source reduce, via
the canonical ring morphism `Int → ZMod q`, to field computations.  These
lemmas let the Jacobian formulas be compared with affine ones. -/

theorem intCast_tmod (a : Int) (q : Nat) :
    ((a.tmod (q : Int) : Int) : ZMod q) = (a : ZMod q) := by
  rw [ZMod.intCast_eq_intCast_iff']
  exact tmod_emod a q

theorem intCast_normMod (a : Int) (q : Nat) :
    ((normMod a (q : Int) : Int) : ZMod q) = (a : ZMod q) := by
  rw [ZMod.intCast_eq_intCast_iff']
  exact normMod_emod a q

theorem int_eq_of_zmod_eq {q : Nat} {u v : Int}
    (h : (u : ZMod q) = (v : ZMod q))
    (hu0 : 0 ≤ u) (hu : u < (q : Int)) (hv0 : 0 ≤ v) (hv : v < (q : Int)) :
    u = v := by
  rw [ZMod.intCast_eq_intCast_iff'] at h
  rwa [Int.emod_eq_of_lt hu0 hu, Int.emod_eq_of_lt hv0 hv] at h

theorem modular_inverse_cast (q : Nat) [hqf : Fact (Nat.Prime q)] (d : Int)
    (hd0 : 0 ≤ d) (hd : (d : ZMod q) ≠ 0) :
    ((modular_inverse d (q : Int) : Int) : ZMod q) = (d : ZMod q)⁻¹ := by
  have hq := hqf.out
  have hdvd : ¬((q : Int) ∣ d) := by
    intro hcontra
    exact hd ((ZMod.intCast_zmod_eq_zero_iff_dvd d q).mpr hcontra)
  have hgcd : Int.gcd d (q : Int) = 1 := by
    have h1 : ¬(q ∣ d.natAbs) := by
      intro hcontra
      apply hdvd
      have h2 : ((q : Int)).natAbs ∣ d.natAbs := by simpa using hcontra
      exact Int.natAbs_dvd_natAbs.mp h2
    have h2 : Nat.Coprime q d.natAbs :=
      (Nat.Prime.coprime_iff_not_dvd hq).mpr h1
    unfold Int.gcd
    simpa [Nat.gcd_comm] using h2
  have hspec := modular_inverse_correct d (q : Int) hd0
    (by exact_mod_cast hq.pos) hgcd
  have hmul : (d : ZMod q) * ((modular_inverse d (q : Int) : Int) : ZMod q) = 1 := by
    have h3 := (ZMod.intCast_eq_intCast_iff _ _ _).mpr hspec.2.2.1
    push_cast at h3
    exact h3
  exact (inv_eq_of_mul_eq_one_right hmul).symm

theorem field_div_cast (q : Nat) [Fact (Nat.Prime q)] (c : ECcurve)
    (hp : c.p = (q : Int)) (num den : Int) (hden0 : 0 ≤ den)
    (hden : (den : ZMod q) ≠ 0) :
    ((c.field_div num den : Int) : ZMod q) = (num : ZMod q) / (den : ZMod q) := by
  unfold ECcurve.field_div ECcurve.field_mul
  rw [hp, intCast_tmod, Int.cast_mul, intCast_tmod,
    modular_inverse_cast q _ (Int.tmod_nonneg _ hden0)
      (by rw [intCast_tmod]; exact hden),
    intCast_tmod, div_eq_mul_inv]

theorem modPowGo_succ (m : Int) (fuel : Nat) (r base : Int) (e : Nat)
    (h : e ≠ 0) :
    modPowGo m (fuel + 1) r base e =
      if base = 0 then 0
      else modPowGo m fuel (if e % 2 = 1 then (r * base).tmod m else r)
        ((base * base).tmod m) (e / 2) := by
  match e, h with
  | k + 1, _ => rfl

theorem modPowGo_zero_e (m : Int) (fuel : Nat) (r base : Int) :
    modPowGo m fuel r base 0 = r := by
  cases fuel <;> rfl

theorem modPowGo_nonneg (m : Int) (fuel : Nat) : ∀ (e : Nat) (r base : Int),
    0 ≤ r → 0 ≤ base → 0 ≤ modPowGo m fuel r base e := by
  induction fuel with
  | zero =>
    intro e r base hr hb
    cases e <;> exact hr
  | succ fuel ih =>
    intro e r base hr hb
    rcases Nat.eq_zero_or_pos e with rfl | hpos
    · rw [modPowGo_zero_e]
      exact hr
    · rw [modPowGo_succ _ _ _ _ _ (by omega)]
      by_cases hb0 : base = 0
      · rw [if_pos hb0]
      · rw [if_neg hb0]
        refine ih _ _ _ ?_ (Int.tmod_nonneg _ (mul_nonneg hb hb))
        by_cases hodd : e % 2 = 1
        · rw [if_pos hodd]
          exact Int.tmod_nonneg _ (mul_nonneg hr hb)
        · rw [if_neg hodd]
          exact hr

theorem modPowGo_cast (q : Nat) (fuel : Nat) : ∀ (e : Nat) (r base : Int),
    e ≤ fuel →
    ((modPowGo (q : Int) fuel r base e : Int) : ZMod q) =
      (r : ZMod q) * (base : ZMod q) ^ e := by
  induction fuel with
  | zero =>
    intro e r base he
    obtain rfl : e = 0 := by omega
    rw [modPowGo_zero_e, pow_zero, mul_one]
  | succ fuel ih =>
    intro e r base he
    rcases Nat.eq_zero_or_pos e with rfl | hpos
    · rw [modPowGo_zero_e, pow_zero, mul_one]
    · rw [modPowGo_succ _ _ _ _ _ (by omega)]
      by_cases hb0 : base = 0
      · rw [if_pos hb0, hb0]
        push_cast
        rw [zero_pow (by omega), mul_zero]
      · rw [if_neg hb0]
        rcases Nat.mod_two_eq_zero_or_one e with hpar | hpar
        · rw [if_neg (by omega), ih _ _ _ (by omega), intCast_tmod,
            Int.cast_mul]
          calc (r : ZMod q) * ((base : ZMod q) * (base : ZMod q)) ^ (e / 2)
              = (r : ZMod q) *
                ((base : ZMod q) ^ (e / 2) * (base : ZMod q) ^ (e / 2)) := by
                rw [mul_pow]
            _ = (r : ZMod q) * (base : ZMod q) ^ (e / 2 + e / 2) := by
                rw [pow_add]
            _ = (r : ZMod q) * (base : ZMod q) ^ e := by
                rw [show e / 2 + e / 2 = e by omega]
        · rw [if_pos hpar, ih _ _ _ (by omega), intCast_tmod, intCast_tmod,
            Int.cast_mul, Int.cast_mul]
          calc (r : ZMod q) * (base : ZMod q) *
                ((base : ZMod q) * (base : ZMod q)) ^ (e / 2)
              = (r : ZMod q) * ((base : ZMod q) ^ 1 *
                  (base : ZMod q) ^ (e / 2) * (base : ZMod q) ^ (e / 2)) := by
                rw [mul_pow, pow_one]
                ring
            _ = (r : ZMod q) * (base : ZMod q) ^ (1 + e / 2 + e / 2) := by
                rw [pow_add, pow_add]
            _ = (r : ZMod q) * (base : ZMod q) ^ e := by
                rw [show 1 + e / 2 + e / 2 = e by omega]

theorem modPow_cast (q : Nat) (base : Int) (e : Nat) :
    ((modPow base e (q : Int) : Int) : ZMod q) = (base : ZMod q) ^ e := by
  unfold modPow
  rw [modPowGo_cast q e e 1 _ (Nat.le_refl e), intCast_tmod, Int.cast_one,
    one_mul]

theorem modPow_nonneg (base : Int) (e : Nat) (m : Int) (hb : 0 ≤ base) :
    0 ≤ modPow base e m := by
  unfold modPow
  exact modPowGo_nonneg m e e 1 _ (by omega) (Int.tmod_nonneg _ hb)

theorem get_x_cast (q : Nat) [Fact (Nat.Prime q)] (c : ECcurve)
    (hp : c.p = (q : Int)) (Q : ECpoint) (hz0 : 0 ≤ Q.z)
    (hz : (Q.z : ZMod q) ≠ 0) :
    ((c.get_x Q : Int) : ZMod q) = (Q.x : ZMod q) / (Q.z : ZMod q) ^ 2 := by
  unfold ECcurve.get_x
  rw [field_div_cast q c hp _ _ (modPow_nonneg _ _ _ hz0)
    (by rw [hp, modPow_cast]; exact pow_ne_zero 2 hz), hp, modPow_cast]

theorem get_y_cast (q : Nat) [Fact (Nat.Prime q)] (c : ECcurve)
    (hp : c.p = (q : Int)) (Q : ECpoint) (hz0 : 0 ≤ Q.z)
    (hz : (Q.z : ZMod q) ≠ 0) :
    ((c.get_y Q : Int) : ZMod q) = (Q.y : ZMod q) / (Q.z : ZMod q) ^ 3 := by
  unfold ECcurve.get_y
  rw [field_div_cast q c hp _ _ (modPow_nonneg _ _ _ hz0)
    (by rw [hp, modPow_cast]; exact pow_ne_zero 3 hz), hp, modPow_cast]

theorem field_div_le (c : ECcurve) (num den : Int) (hp : 0 < c.p) :
    c.field_div num den ≤ c.p - 1 := by
  unfold ECcurve.field_div ECcurve.field_mul
  exact tmod_le _ hp

theorem two_ne_zero_zmod (q : Nat) [hqf : Fact (Nat.Prime q)] (hq2 : q ≠ 2) :
    (2 : ZMod q) ≠ 0 := by
  intro hcontra
  have h1 : ((2 : Nat) : ZMod q) = 0 := by exact_mod_cast hcontra
  have h2 := (ZMod.natCast_zmod_eq_zero_iff_dvd 2 q).mp h1
  rcases (Nat.Prime.eq_one_or_self_of_dvd Nat.prime_two q h2) with h3 | h3
  · exact Nat.Prime.ne_one hqf.out h3
  · exact hq2 h3

theorem double_cast (q : Nat) (c : ECcurve) (hp : c.p = (q : Int))
    (P : ECpoint) (hPx : P.x ≠ c.p) :
    ((c.double P).x : ZMod q) =
      (3 * (P.x : ZMod q) ^ 2 + (c.a : ZMod q) * (P.z : ZMod q) ^ 4) ^ 2 -
        2 * (4 * (P.x : ZMod q) * (P.y : ZMod q) ^ 2) ∧
    ((c.double P).y : ZMod q) =
      (3 * (P.x : ZMod q) ^ 2 + (c.a : ZMod q) * (P.z : ZMod q) ^ 4) *
        (4 * (P.x : ZMod q) * (P.y : ZMod q) ^ 2 - ((c.double P).x : ZMod q)) -
        8 * (P.y : ZMod q) ^ 4 ∧
    ((c.double P).z : ZMod q) = 2 * (P.y : ZMod q) * (P.z : ZMod q) := by
  unfold ECcurve.double
  rw [if_neg hPx, hp]
  dsimp only
  refine ⟨?_, ?_, ?_⟩
  · rw [intCast_normMod]
    push_cast [intCast_tmod]
    ring
  · rw [intCast_normMod, intCast_normMod]
    push_cast [intCast_tmod, intCast_normMod]
    ring
  · rw [intCast_tmod]
    push_cast
    ring

theorem tangent_cast (q : Nat) [Fact (Nat.Prime q)] (c : ECcurve)
    (hp : c.p = (q : Int)) (Q : ECpoint) (hy0 : 0 ≤ Q.y)
    (hy : (Q.y : ZMod q) ≠ 0) (hq2 : q ≠ 2) :
    ((c.tangent Q : Int) : ZMod q) =
      ((Q.x : ZMod q) * (Q.x : ZMod q) * 3 + (c.a : ZMod q)) /
        ((Q.y : ZMod q) * 2) := by
  unfold ECcurve.tangent
  rw [field_div_cast q c hp _ _ (mul_nonneg hy0 (by omega))
    (by push_cast; exact mul_ne_zero hy (two_ne_zero_zmod q hq2))]
  push_cast
  ring

/-- Textbook affine tangent-line doubling, the cross-check reference of the
specification: slope `t` from `ECcurve.tangent`, then `x2 = t ^ 2 - 2 x` and
`y2 = t (x - x2) - y`, renormalized into `[0, p - 1]`. -/
def tangentDouble (c : ECcurve) (Q : ECpoint) : Int × Int :=
  let t := c.tangent Q
  let x2 := normMod (t * t - 2 * Q.x) c.p
  let y2 := normMod (t * (Q.x - x2) - Q.y) c.p
  (x2, y2)

/-- C3: for a finite affine point `P` (Jacobian with `z = 1`) on the curve
with `y` not congruent to `0 mod p`, `double(P)` represents the same affine
point as the textbook tangent-line doubling of `P` computed through the
field-division-based `tangent` slope. -/
theorem double_matches_tangentDouble (q : Nat) [hqf : Fact (Nat.Prime q)]
    (hq2 : q ≠ 2) (c : ECcurve) (hp : c.p = (q : Int)) (P : ECpoint)
    (hx0 : 0 ≤ P.x) (hx1 : P.x < c.p) (hy0 : 0 ≤ P.y) (hy1 : P.y < c.p)
    (hz : P.z = 1) (hyne : (P.y : ZMod q) ≠ 0)
    (hcurve : (P.y : ZMod q) ^ 2 =
      (P.x : ZMod q) ^ 3 + (c.a : ZMod q) * (P.x : ZMod q) + (c.b : ZMod q)) :
    c.get_x (c.double P) = (tangentDouble c P).1 ∧
    c.get_y (c.double P) = (tangentDouble c P).2 := by
  have hq1 : 1 < q := hqf.out.one_lt
  have hqpos : (0 : Int) < (q : Int) := by exact_mod_cast hqf.out.pos
  have hppos : 0 < c.p := by rw [hp]; exact hqpos
  have hPx : P.x ≠ c.p := by omega
  obtain ⟨hdx, hdy, hdz⟩ := double_cast q c hp P hPx
  have h2 : (2 : ZMod q) ≠ 0 := two_ne_zero_zmod q hq2
  have hzc : ((P.z : Int) : ZMod q) = 1 := by rw [hz]; push_cast; rfl
  have hz2 : (((c.double P).z : Int) : ZMod q) ≠ 0 := by
    rw [hdz, hzc, mul_one]
    exact mul_ne_zero h2 hyne
  have hz0d : 0 ≤ (c.double P).z := by
    unfold ECcurve.double
    rw [if_neg hPx]
    dsimp only
    refine Int.tmod_nonneg _ ?_
    rw [hz]
    omega
  have ht := tangent_cast q c hp P hy0 hyne hq2
  have hden : ((P.y : ZMod q) * 2) ≠ 0 := mul_ne_zero hyne h2
  constructor
  · apply int_eq_of_zmod_eq (q := q)
    · rw [get_x_cast q c hp _ hz0d hz2]
      unfold tangentDouble
      dsimp only
      rw [hp, intCast_normMod]
      push_cast
      rw [hdx, hdz, ht, hzc]
      field_simp
      ring
    · exact field_div_nonneg c _ _ hppos (by
        unfold ECcurve.double
        rw [if_neg hPx]
        dsimp only
        exact normMod_nonneg _ hppos)
    · have := field_div_le c (c.double P).x (modPow (c.double P).z 2 c.p) hppos
      unfold ECcurve.get_x
      omega
    · unfold tangentDouble
      dsimp only
      exact normMod_nonneg _ hppos
    · unfold tangentDouble
      dsimp only
      have := normMod_lt (c.tangent P * c.tangent P - 2 * P.x) hppos
      omega
  · apply int_eq_of_zmod_eq (q := q)
    · rw [get_y_cast q c hp _ hz0d hz2]
      unfold tangentDouble
      dsimp only
      rw [hp, intCast_normMod]
      push_cast
      rw [intCast_normMod]
      push_cast
      rw [hdy, hdx, hdz, ht, hzc]
      field_simp
      ring
    · exact field_div_nonneg c _ _ hppos (by
        unfold ECcurve.double
        rw [if_neg hPx]
        dsimp only
        exact normMod_nonneg _ hppos)
    · have := field_div_le c (c.double P).y (modPow (c.double P).z 3 c.p) hppos
      unfold ECcurve.get_y
      omega
    · unfold tangentDouble
      dsimp only
      exact normMod_nonneg _ hppos
    · unfold tangentDouble
      dsimp only
      have := normMod_lt (c.tangent P *
        (P.x - normMod (c.tangent P * c.tangent P - 2 * P.x) c.p) - P.y) hppos
      omega

/-- C3 witness: the theorem applied on the curve `y^2 = x^3 + x + 1` over
`GF(5)` at the point `(0, 1)`. -/
theorem double_matches_tangentDouble_witness :
    (ECcurve.mk 5 1 1).get_x ((ECcurve.mk 5 1 1).double ⟨0, 1, 1⟩) =
      (tangentDouble (ECcurve.mk 5 1 1) ⟨0, 1, 1⟩).1 ∧
    (ECcurve.mk 5 1 1).get_y ((ECcurve.mk 5 1 1).double ⟨0, 1, 1⟩) =
      (tangentDouble (ECcurve.mk 5 1 1) ⟨0, 1, 1⟩).2 :=
  @double_matches_tangentDouble 5 (Fact.mk (by norm_num)) (by decide)
    (ECcurve.mk 5 1 1) (by decide) ⟨0, 1, 1⟩ (by decide) (by decide)
    (by decide) (by decide) (by decide) (by decide) (by decide)

/-- C4: on a curve of odd prime modulus carrying no point with vanishing
`y` (no two-torsion; the reference curve has prime group order, hence none),
adding a finite affine point `(x, y)` to `(x, p - y)` returns the identity:
the cross-multiplied x-comparisons agree, the y-comparisons differ, and the
vertical-pair branch of `ECcurve.add` yields the sentinel. -/
theorem add_vertical_pair_identity (q : Nat) [hqf : Fact (Nat.Prime q)]
    (hq2 : q ≠ 2) (c : ECcurve) (hp : c.p = (q : Int)) (x y : Int)
    (hx0 : 0 ≤ x) (hx1 : x < c.p) (hy0 : 0 ≤ y) (hy1 : y < c.p)
    (hcurve : (y : ZMod q) ^ 2 =
      (x : ZMod q) ^ 3 + (c.a : ZMod q) * (x : ZMod q) + (c.b : ZMod q))
    (htor : ∀ t : ZMod q, t ^ 3 + (c.a : ZMod q) * t + (c.b : ZMod q) ≠ 0) :
    c.add ⟨x, y, 1⟩ ⟨x, c.p - y, 1⟩ = c.identity := by
  have hq1 : 1 < q := hqf.out.one_lt
  have hppos : 0 < c.p := by rw [hp]; exact_mod_cast hqf.out.pos
  have hyne : (y : ZMod q) ≠ 0 := by
    intro h
    apply htor (x : ZMod q)
    rw [← hcurve, h]
    ring
  have hypos : 0 < y := by
    rcases eq_or_lt_of_le hy0 with h | h
    · exfalso
      apply hyne
      rw [← h]
      push_cast
      rfl
    · exact h
  have hodd : q % 2 = 1 := Nat.odd_iff.mp (hqf.out.odd_of_ne_two hq2)
  unfold ECcurve.add
  dsimp only
  rw [if_neg (by omega), if_neg (by omega), if_pos rfl, if_neg ?hys]
  case hys =>
    have e1 : (y * (1 * 1) * 1 : Int) = y := by ring
    have e2 : ((c.p - y) * (1 * 1) * 1 : Int) = c.p - y := by ring
    rw [e1, e2, Int.tmod_eq_of_lt hy0 hy1,
      Int.tmod_eq_of_lt (by omega) (by omega)]
    intro hcontra
    rw [hp] at hcontra
    omega

/-- C4 witness: the theorem applied on the two-torsion-free curve
`y^2 = x^3 + x + 1` over `GF(5)` at the point `(0, 1)`. -/
theorem add_vertical_pair_identity_witness :
    (ECcurve.mk 5 1 1).add ⟨0, 1, 1⟩ ⟨0, (ECcurve.mk 5 1 1).p - 1, 1⟩ =
      (ECcurve.mk 5 1 1).identity :=
  @add_vertical_pair_identity 5 (Fact.mk (by norm_num)) (by decide)
    (ECcurve.mk 5 1 1) (by decide) 0 1 (by decide) (by decide) (by decide)
    (by decide) (by decide) (by decide)

/-- C10: on any curve whose constant coefficient is not divisible by `p`
(in particular the reference curve, where `b = 7`), the membership test
applied to the identity sentinel `(p, 0, 1)` returns `false`: the affine
extraction of the sentinel yields `(0, 0)` because `p mod p = 0`, and then
`0 ≠ b mod p`. -/
theorem touches_identity_eq_false (c : ECcurve) (hp : 1 < c.p)
    (hb : c.b % c.p ≠ 0) :
    c.touches c.identity = false := by
  have hx : c.get_x c.identity = 0 := by
    unfold ECcurve.get_x ECcurve.identity ECcurve.field_div ECcurve.field_mul
    simp [Int.tmod_self, Int.zero_tmod]
  have hy : c.get_y c.identity = 0 := by
    unfold ECcurve.get_y ECcurve.identity ECcurve.field_div ECcurve.field_mul
    simp [Int.zero_tmod]
  have htb : c.b.tmod c.p ≠ 0 := by
    intro h
    have h2 := tmod_emod c.b c.p
    rw [h] at h2
    rw [← h2] at hb
    simp at hb
  unfold ECcurve.touches ECcurve.field_mul
  rw [hx, hy]
  simp only [Int.mul_zero, Int.zero_mul, Int.zero_tmod, Int.zero_add, Int.add_zero]
  simp [htb]
  omega

/-- C10 witness: the theorem applied to the reference secp256k1 curve. -/
theorem touches_identity_eq_false_witness :
    secp256k1.touches secp256k1.identity = false :=
  touches_identity_eq_false secp256k1 (by decide) (by decide)

/-- C8 witness: the termination theorem applied at scalar 6 with a larger
fuel bound. -/
theorem mul_terminates_witness :
    secp256k1.mul secp256k1_G 0 = secp256k1.identity ∧
    Nat.shiftRight 6 1 < 6 ∧
    mulLoop secp256k1 9 secp256k1.identity secp256k1_G 6 =
      mulLoop secp256k1 6 secp256k1.identity secp256k1_G 6 :=
  ⟨(mul_terminates secp256k1 secp256k1_G secp256k1.identity 6 9).1,
   (mul_terminates secp256k1 secp256k1_G secp256k1.identity 6 9).2.1
     (by decide),
   (mul_terminates secp256k1 secp256k1_G secp256k1.identity 6 9).2.2
     (by decide)⟩

/-! ### The group law: relating the Jacobian routines to the Mathlib affine
Weierstrass group over `ZMod q`

`ECcurve.mul` and `ECcurve.add` are compared with the additive group of
nonsingular affine points of the corresponding short Weierstrass curve.  The
comparison is stated through the relation `Represents`, which carries the
well-formedness facts (canonical ranges, nonzero `z`, curve membership) that
the loop of `mul` preserves. -/

/-- Affine x coordinate of a Jacobian triple, in the field. -/
def affX (q : Nat) [Fact (Nat.Prime q)] (P : ECpoint) : ZMod q :=
  (P.x : ZMod q) / (P.z : ZMod q) ^ 2

/-- Affine y coordinate of a Jacobian triple, in the field. -/
def affY (q : Nat) [Fact (Nat.Prime q)] (P : ECpoint) : ZMod q :=
  (P.y : ZMod q) / (P.z : ZMod q) ^ 3

/-- The short Weierstrass curve over `ZMod q` with the coefficients of `c`. -/
def curveW (q : Nat) (c : ECcurve) : WeierstrassCurve.Affine (ZMod q) :=
  ⟨0, 0, 0, (c.a : ZMod q), (c.b : ZMod q)⟩

theorem curveW_equation_iff (q : Nat) (c : ECcurve) (x y : ZMod q) :
    (curveW q c).Equation x y ↔
      y ^ 2 = x ^ 3 + (c.a : ZMod q) * x + (c.b : ZMod q) := by
  rw [WeierstrassCurve.Affine.equation_iff]
  simp [curveW]

theorem curveW_negY (q : Nat) (c : ECcurve) (x y : ZMod q) :
    (curveW q c).negY x y = -y := by
  simp [WeierstrassCurve.Affine.negY, curveW]

theorem curveW_nonsingular (q : Nat) [Fact (Nat.Prime q)] (c : ECcurve) (x y : ZMod q)
    (hE : (curveW q c).Equation x y) (hy : y ≠ 0) (h2 : (2 : ZMod q) ≠ 0) :
    (curveW q c).Nonsingular x y := by
  rw [WeierstrassCurve.Affine.nonsingular_iff]
  refine ⟨hE, Or.inr ?_⟩
  show y ≠ -y - (curveW q c).a₁ * x - (curveW q c).a₃
  have ha1 : (curveW q c).a₁ = 0 := rfl
  have ha3 : (curveW q c).a₃ = 0 := rfl
  rw [ha1, ha3]
  intro hcontra
  apply hy
  have h2y : 2 * y = 0 := by linear_combination hcontra
  rcases mul_eq_zero.mp h2y with h | h
  · exact absurd h h2
  · exact h

theorem on_curve_y_ne_zero (q : Nat) (c : ECcurve)
    (htor : ∀ t : ZMod q, t ^ 3 + (c.a : ZMod q) * t + (c.b : ZMod q) ≠ 0)
    (x y : ZMod q)
    (hE : y ^ 2 = x ^ 3 + (c.a : ZMod q) * x + (c.b : ZMod q)) : y ≠ 0 := by
  intro h
  apply htor x
  rw [← hE, h]
  ring

/-- Affine-coordinate equality of two program points: both are the identity
sentinel, or both are finite with equal affine coordinates.  The identity
point is equal only to the identity point. -/
def affineEq (c : ECcurve) (P Q : ECpoint) : Prop :=
  (P.x = c.p ∧ Q.x = c.p) ∨
  (P.x ≠ c.p ∧ Q.x ≠ c.p ∧ c.get_x P = c.get_x Q ∧ c.get_y P = c.get_y Q)

instance affineEq.instDecidable (c : ECcurve) (P Q : ECpoint) :
    Decidable (affineEq c P Q) := by
  unfold affineEq
  infer_instance

/-- Cross-multiplied comparison quantities of `ECcurve.add`, named. -/
def xs1I (c : ECcurve) (P1 P2 : ECpoint) : Int :=
  (P1.x * (P2.z * P2.z)).tmod c.p

def xs2I (c : ECcurve) (P1 P2 : ECpoint) : Int :=
  (P2.x * (P1.z * P1.z)).tmod c.p

def ys1I (c : ECcurve) (P1 P2 : ECpoint) : Int :=
  (P1.y * (P2.z * P2.z) * P2.z).tmod c.p

def ys2I (c : ECcurve) (P1 P2 : ECpoint) : Int :=
  (P2.y * (P1.z * P1.z) * P1.z).tmod c.p

/-- The ordinary-case chord formula of `ECcurve.add`, named. -/
def addGen (c : ECcurve) (P1 P2 : ECpoint) : ECpoint :=
  let xd := normMod (xs2I c P1 P2 - xs1I c P1 P2) c.p
  let yd := normMod (ys2I c P1 P2 - ys1I c P1 P2) c.p
  let xd2 := (xd * xd).tmod c.p
  let xd3 := (xd2 * xd).tmod c.p
  let x := normMod (yd * yd - xd3 - xs1I c P1 P2 * xd2 * 2) c.p
  let y := normMod (yd * (xs1I c P1 P2 * xd2 - x) - ys1I c P1 P2 * xd3) c.p
  let z := (xd * P1.z * P2.z).tmod c.p
  ⟨x, y, z⟩

theorem add_unfold (c : ECcurve) (P1 P2 : ECpoint) :
    c.add P1 P2 =
      if P1.x = c.p then P2
      else if P2.x = c.p then P1
      else if xs1I c P1 P2 = xs2I c P1 P2 then
        (if ys1I c P1 P2 = ys2I c P1 P2 then c.double P1 else c.identity)
      else addGen c P1 P2 := rfl

/-- The program point `P` represents the Mathlib point `X`: either `P` is
the identity sentinel and `X` is zero, or `P` is a well-formed finite
Jacobian triple whose affine coordinates give `X`. -/
def Represents (q : Nat) [Fact (Nat.Prime q)] (c : ECcurve) (P : ECpoint)
    (X : (curveW q c).Point) : Prop :=
  (P = c.identity ∧ X = 0) ∨
  (P.x ≠ c.p ∧ 0 ≤ P.x ∧ P.x < c.p ∧ 0 ≤ P.y ∧ P.y < c.p ∧
    0 ≤ P.z ∧ P.z < c.p ∧ (P.z : ZMod q) ≠ 0 ∧
    ∃ h : (curveW q c).Nonsingular (affX q P) (affY q P),
      X = WeierstrassCurve.Affine.Point.some h)

theorem represents_identity (q : Nat) [Fact (Nat.Prime q)] (c : ECcurve) :
    Represents q c c.identity 0 :=
  Or.inl ⟨rfl, rfl⟩

theorem ne_neg_self_of_ne_zero {q : Nat} [Fact (Nat.Prime q)]
    (h2 : (2 : ZMod q) ≠ 0) {y : ZMod q} (hy : y ≠ 0) : y ≠ -y := by
  intro h
  apply hy
  have h2y : 2 * y = 0 := by linear_combination h
  rcases mul_eq_zero.mp h2y with h3 | h3
  · exact absurd h3 h2
  · exact h3

theorem represents_double (q : Nat) [hqf : Fact (Nat.Prime q)] (hq2 : q ≠ 2)
    (c : ECcurve) (hp : c.p = (q : Int))
    (htor : ∀ t : ZMod q, t ^ 3 + (c.a : ZMod q) * t + (c.b : ZMod q) ≠ 0)
    (P : ECpoint) (X : (curveW q c).Point) (h : Represents q c P X) :
    Represents q c (c.double P) (X + X) := by
  have hppos : 0 < c.p := by rw [hp]; exact_mod_cast hqf.out.pos
  have h2 : (2 : ZMod q) ≠ 0 := two_ne_zero_zmod q hq2
  rcases h with ⟨rfl, rfl⟩ | ⟨hne, hx0, hx1, hy0, hy1, hz0, hz1, hzq, hns, hXeq⟩
  · have hdid : c.double c.identity = c.identity := by
      unfold ECcurve.double ECcurve.identity
      simp
    rw [hdid, add_zero]
    exact represents_identity q c
  · have hE1 : (affY q P) ^ 2 = (affX q P) ^ 3 +
        (c.a : ZMod q) * affX q P + (c.b : ZMod q) :=
      (curveW_equation_iff q c _ _).mp hns.1
    have hy1ne : affY q P ≠ 0 := on_curve_y_ne_zero q c htor _ _ hE1
    have hyJ : (P.y : ZMod q) ≠ 0 := by
      intro hcon
      apply hy1ne
      unfold affY
      rw [hcon]
      simp
    have hyne2 : affY q P ≠ (curveW q c).negY (affX q P) (affY q P) := by
      rw [curveW_negY]
      exact ne_neg_self_of_ne_zero h2 hy1ne
    obtain ⟨hdx, hdy, hdz⟩ := double_cast q c hp P hne
    have hrange : 0 ≤ (c.double P).x ∧ (c.double P).x < c.p ∧
        0 ≤ (c.double P).y ∧ (c.double P).y < c.p ∧
        0 ≤ (c.double P).z ∧ (c.double P).z < c.p := by
      unfold ECcurve.double
      rw [if_neg hne]
      dsimp only
      exact ⟨normMod_nonneg _ hppos, normMod_lt _ hppos,
        normMod_nonneg _ hppos, normMod_lt _ hppos,
        Int.tmod_nonneg _ (mul_nonneg (mul_nonneg hz0 hy0) (by omega)),
        Int.tmod_lt_of_pos _ hppos⟩
    have hdzq : (((c.double P).z : Int) : ZMod q) ≠ 0 := by
      rw [hdz]
      exact mul_ne_zero (mul_ne_zero h2 hyJ) hzq
    have ha2 : (curveW q c).a₂ = 0 := rfl
    have ha4 : (curveW q c).a₄ = (c.a : ZMod q) := rfl
    have ha1 : (curveW q c).a₁ = 0 := rfl
    have hB : (2 * (P.y : ZMod q) * (P.z : ZMod q)) ≠ 0 :=
      mul_ne_zero (mul_ne_zero h2 hyJ) hzq
    have hz2 : ((P.z : ZMod q)) ^ 2 ≠ 0 := pow_ne_zero 2 hzq
    have hz3 : ((P.z : ZMod q)) ^ 3 ≠ 0 := pow_ne_zero 3 hzq
    have hK : (curveW q c).slope (affX q P) (affX q P) (affY q P) (affY q P) =
        (3 * (P.x : ZMod q) ^ 2 + (c.a : ZMod q) * (P.z : ZMod q) ^ 4) /
          (2 * (P.y : ZMod q) * (P.z : ZMod q)) := by
      rw [WeierstrassCurve.Affine.slope_of_Y_ne rfl hyne2, curveW_negY, ha1,
        ha2, ha4, sub_neg_eq_add]
      simp only [zero_mul, mul_zero, sub_zero, add_zero]
      unfold affX affY
      have hden : ((P.y : ZMod q) / (P.z : ZMod q) ^ 3 +
          (P.y : ZMod q) / (P.z : ZMod q) ^ 3) ≠ 0 := by
        rw [div_add_div_same]
        refine div_ne_zero ?_ hz3
        have e : ((P.y : ZMod q) + (P.y : ZMod q)) = 2 * (P.y : ZMod q) := by
          ring
        rw [e]
        exact mul_ne_zero h2 hyJ
      rw [div_eq_div_iff hden hB]
      field_simp
      ring
    have hax : affX q (c.double P) =
        (curveW q c).addX (affX q P) (affX q P)
          ((curveW q c).slope (affX q P) (affX q P) (affY q P) (affY q P)) := by
      rw [WeierstrassCurve.Affine.addX, ha1, ha2, hK]
      simp only [zero_mul, sub_zero, add_zero, zero_add]
      show ((c.double P).x : ZMod q) / ((c.double P).z : ZMod q) ^ 2 = _
      rw [hdx, hdz]
      unfold affX
      rw [div_pow, div_sub_div _ _ (pow_ne_zero 2 hB) hz2,
        div_sub_div _ _ (mul_ne_zero (pow_ne_zero 2 hB) hz2) hz2,
        div_eq_div_iff (pow_ne_zero 2 hB)
          (mul_ne_zero (mul_ne_zero (pow_ne_zero 2 hB) hz2) hz2)]
      ring
    have haxfrac : (curveW q c).addX (affX q P) (affX q P)
        ((curveW q c).slope (affX q P) (affX q P) (affY q P) (affY q P)) =
        (((3 * (P.x : ZMod q) ^ 2 + (c.a : ZMod q) * (P.z : ZMod q) ^ 4) ^ 2 -
            2 * (4 * (P.x : ZMod q) * (P.y : ZMod q) ^ 2))) /
          (2 * (P.y : ZMod q) * (P.z : ZMod q)) ^ 2 := by
      rw [← hax]
      show ((c.double P).x : ZMod q) / ((c.double P).z : ZMod q) ^ 2 = _
      rw [hdx, hdz]
    have hay : affY q (c.double P) =
        (curveW q c).addY (affX q P) (affX q P) (affY q P)
          ((curveW q c).slope (affX q P) (affX q P) (affY q P) (affY q P)) := by
      rw [WeierstrassCurve.Affine.addY, curveW_negY,
        WeierstrassCurve.Affine.negAddY, haxfrac, hK]
      show ((c.double P).y : ZMod q) / ((c.double P).z : ZMod q) ^ 3 = _
      rw [hdy, hdx, hdz]
      unfold affX affY
      rw [div_sub_div _ _ (pow_ne_zero 2 hB) hz2, div_mul_div_comm,
        div_add_div _ _ (mul_ne_zero hB (mul_ne_zero (pow_ne_zero 2 hB) hz2))
          hz3,
        ← neg_div,
        div_eq_div_iff (pow_ne_zero 3 hB)
          (mul_ne_zero (mul_ne_zero hB (mul_ne_zero (pow_ne_zero 2 hB) hz2))
            hz3)]
      ring
    have hXX : X + X = WeierstrassCurve.Affine.Point.some
        (WeierstrassCurve.Affine.nonsingular_add hns hns fun _ => hyne2) := by
      rw [hXeq]
      exact WeierstrassCurve.Affine.Point.add_self_of_Y_ne hyne2
    refine Or.inr ⟨by omega, hrange.1, hrange.2.1, hrange.2.2.1,
      hrange.2.2.2.1, hrange.2.2.2.2.1, hrange.2.2.2.2.2, hdzq, ?_, ?_⟩
    · rw [hax, hay]
      exact WeierstrassCurve.Affine.nonsingular_add hns hns fun _ => hyne2
    · rw [hXX]
      congr 1
      all_goals first
        | exact hax.symm
        | exact hay.symm

theorem xs1I_cast (q : Nat) (c : ECcurve) (hp : c.p = (q : Int))
    (P1 P2 : ECpoint) :
    ((xs1I c P1 P2 : Int) : ZMod q) = (P1.x : ZMod q) * (P2.z : ZMod q) ^ 2 := by
  unfold xs1I
  rw [hp, intCast_tmod]
  push_cast
  ring

theorem xs2I_cast (q : Nat) (c : ECcurve) (hp : c.p = (q : Int))
    (P1 P2 : ECpoint) :
    ((xs2I c P1 P2 : Int) : ZMod q) = (P2.x : ZMod q) * (P1.z : ZMod q) ^ 2 := by
  unfold xs2I
  rw [hp, intCast_tmod]
  push_cast
  ring

theorem ys1I_cast (q : Nat) (c : ECcurve) (hp : c.p = (q : Int))
    (P1 P2 : ECpoint) :
    ((ys1I c P1 P2 : Int) : ZMod q) = (P1.y : ZMod q) * (P2.z : ZMod q) ^ 3 := by
  unfold ys1I
  rw [hp, intCast_tmod]
  push_cast
  ring

theorem ys2I_cast (q : Nat) (c : ECcurve) (hp : c.p = (q : Int))
    (P1 P2 : ECpoint) :
    ((ys2I c P1 P2 : Int) : ZMod q) = (P2.y : ZMod q) * (P1.z : ZMod q) ^ 3 := by
  unfold ys2I
  rw [hp, intCast_tmod]
  push_cast
  ring

theorem addGen_cast (q : Nat) (c : ECcurve) (hp : c.p = (q : Int))
    (P1 P2 : ECpoint) :
    ((addGen c P1 P2).x : ZMod q) =
      ((P2.y : ZMod q) * (P1.z : ZMod q) ^ 3 -
          (P1.y : ZMod q) * (P2.z : ZMod q) ^ 3) ^ 2 -
        ((P2.x : ZMod q) * (P1.z : ZMod q) ^ 2 -
          (P1.x : ZMod q) * (P2.z : ZMod q) ^ 2) ^ 3 -
        (P1.x : ZMod q) * (P2.z : ZMod q) ^ 2 *
          ((P2.x : ZMod q) * (P1.z : ZMod q) ^ 2 -
            (P1.x : ZMod q) * (P2.z : ZMod q) ^ 2) ^ 2 * 2 ∧
    ((addGen c P1 P2).y : ZMod q) =
      ((P2.y : ZMod q) * (P1.z : ZMod q) ^ 3 -
          (P1.y : ZMod q) * (P2.z : ZMod q) ^ 3) *
        ((P1.x : ZMod q) * (P2.z : ZMod q) ^ 2 *
            ((P2.x : ZMod q) * (P1.z : ZMod q) ^ 2 -
              (P1.x : ZMod q) * (P2.z : ZMod q) ^ 2) ^ 2 -
          ((addGen c P1 P2).x : ZMod q)) -
        (P1.y : ZMod q) * (P2.z : ZMod q) ^ 3 *
          ((P2.x : ZMod q) * (P1.z : ZMod q) ^ 2 -
            (P1.x : ZMod q) * (P2.z : ZMod q) ^ 2) ^ 3 ∧
    ((addGen c P1 P2).z : ZMod q) =
      ((P2.x : ZMod q) * (P1.z : ZMod q) ^ 2 -
          (P1.x : ZMod q) * (P2.z : ZMod q) ^ 2) *
        (P1.z : ZMod q) * (P2.z : ZMod q) := by
  unfold addGen xs1I xs2I ys1I ys2I
  rw [hp]
  dsimp only
  refine ⟨?_, ?_, ?_⟩
  · rw [intCast_normMod]
    push_cast [intCast_tmod, intCast_normMod]
    ring
  · rw [intCast_normMod]
    push_cast [intCast_tmod, intCast_normMod]
    ring
  · rw [intCast_tmod]
    push_cast [intCast_tmod, intCast_normMod]
    ring

theorem represents_add (q : Nat) [hqf : Fact (Nat.Prime q)] (hq2 : q ≠ 2)
    (c : ECcurve) (hp : c.p = (q : Int))
    (htor : ∀ t : ZMod q, t ^ 3 + (c.a : ZMod q) * t + (c.b : ZMod q) ≠ 0)
    (P1 P2 : ECpoint) (X1 X2 : (curveW q c).Point)
    (h1 : Represents q c P1 X1) (h2 : Represents q c P2 X2) :
    Represents q c (c.add P1 P2) (X1 + X2) := by
  have hppos : 0 < c.p := by rw [hp]; exact_mod_cast hqf.out.pos
  have h2z : (2 : ZMod q) ≠ 0 := two_ne_zero_zmod q hq2
  rcases h1 with ⟨rfl, rfl⟩ | ⟨hne1, hx01, hx11, hy01, hy11, hz01, hz11, hzq1, hns1, hX1eq⟩
  · rw [add_identity_left, zero_add]
    exact h2
  rcases h2 with ⟨rfl, rfl⟩ | ⟨hne2, hx02, hx12, hy02, hy12, hz02, hz12, hzq2, hns2, hX2eq⟩
  · rw [add_identity_right c P1 hne1, add_zero]
    exact Or.inr ⟨hne1, hx01, hx11, hy01, hy11, hz01, hz11, hzq1, hns1, hX1eq⟩
  have hz21 : ((P1.z : ZMod q)) ^ 2 ≠ 0 := pow_ne_zero 2 hzq1
  have hz22 : ((P2.z : ZMod q)) ^ 2 ≠ 0 := pow_ne_zero 2 hzq2
  have hz31 : ((P1.z : ZMod q)) ^ 3 ≠ 0 := pow_ne_zero 3 hzq1
  have hz32 : ((P2.z : ZMod q)) ^ 3 ≠ 0 := pow_ne_zero 3 hzq2
  have hs1 := xs1I_cast q c hp P1 P2
  have hs2 := xs2I_cast q c hp P1 P2
  have ht1 := ys1I_cast q c hp P1 P2
  have ht2 := ys2I_cast q c hp P1 P2
  have hr10 : 0 ≤ xs1I c P1 P2 :=
    Int.tmod_nonneg _ (mul_nonneg hx01 (mul_nonneg hz02 hz02))
  have hr11 : xs1I c P1 P2 < c.p := Int.tmod_lt_of_pos _ hppos
  have hr20 : 0 ≤ xs2I c P1 P2 :=
    Int.tmod_nonneg _ (mul_nonneg hx02 (mul_nonneg hz01 hz01))
  have hr21 : xs2I c P1 P2 < c.p := Int.tmod_lt_of_pos _ hppos
  have hu10 : 0 ≤ ys1I c P1 P2 :=
    Int.tmod_nonneg _ (mul_nonneg (mul_nonneg hy01 (mul_nonneg hz02 hz02)) hz02)
  have hu11 : ys1I c P1 P2 < c.p := Int.tmod_lt_of_pos _ hppos
  have hu20 : 0 ≤ ys2I c P1 P2 :=
    Int.tmod_nonneg _ (mul_nonneg (mul_nonneg hy02 (mul_nonneg hz01 hz01)) hz01)
  have hu21 : ys2I c P1 P2 < c.p := Int.tmod_lt_of_pos _ hppos
  have hxiff : xs1I c P1 P2 = xs2I c P1 P2 ↔ affX q P1 = affX q P2 := by
    constructor
    · intro h
      have hc : ((xs1I c P1 P2 : Int) : ZMod q) =
          ((xs2I c P1 P2 : Int) : ZMod q) := by rw [h]
      rw [hs1, hs2] at hc
      unfold affX
      rw [div_eq_div_iff hz21 hz22]
      linear_combination hc
    · intro h
      unfold affX at h
      rw [div_eq_div_iff hz21 hz22] at h
      refine int_eq_of_zmod_eq (q := q) ?_ hr10 (by omega) hr20 (by omega)
      rw [hs1, hs2]
      linear_combination h
  have hyiff : ys1I c P1 P2 = ys2I c P1 P2 ↔ affY q P1 = affY q P2 := by
    constructor
    · intro h
      have hc : ((ys1I c P1 P2 : Int) : ZMod q) =
          ((ys2I c P1 P2 : Int) : ZMod q) := by rw [h]
      rw [ht1, ht2] at hc
      unfold affY
      rw [div_eq_div_iff hz31 hz32]
      linear_combination hc
    · intro h
      unfold affY at h
      rw [div_eq_div_iff hz31 hz32] at h
      refine int_eq_of_zmod_eq (q := q) ?_ hu10 (by omega) hu20 (by omega)
      rw [ht1, ht2]
      linear_combination h
  rw [add_unfold, if_neg hne1, if_neg hne2]
  by_cases hxs : xs1I c P1 P2 = xs2I c P1 P2
  · rw [if_pos hxs]
    by_cases hys : ys1I c P1 P2 = ys2I c P1 P2
    · rw [if_pos hys]
      have hXX : X2 = X1 := by
        rw [hX1eq, hX2eq]
        congr 1
        · exact (hxiff.mp hxs).symm
        · exact (hyiff.mp hys).symm
      rw [hXX]
      exact represents_double q hq2 c hp htor P1 X1
        (Or.inr ⟨hne1, hx01, hx11, hy01, hy11, hz01, hz11, hzq1, hns1, hX1eq⟩)
    · rw [if_neg hys]
      have hxe := hxiff.mp hxs
      have hye : affY q P1 ≠ affY q P2 := fun hcon => hys (hyiff.mpr hcon)
      have hneg : affY q P1 = (curveW q c).negY (affX q P2) (affY q P2) := by
        rcases WeierstrassCurve.Affine.Y_eq_of_X_eq hns1.1 hns2.1 hxe with h | h
        · exact absurd h hye
        · exact h
      have hzero : X1 + X2 = 0 := by
        rw [hX1eq, hX2eq]
        exact WeierstrassCurve.Affine.Point.add_of_Y_eq hxe hneg
      rw [hzero]
      exact represents_identity q c
  · rw [if_neg hxs]
    have hxne : affX q P1 ≠ affX q P2 := fun hcon => hxs (hxiff.mpr hcon)
    obtain ⟨hgx, hgy, hgz⟩ := addGen_cast q c hp P1 P2
    have hsubA : ((P2.x : ZMod q) * (P1.z : ZMod q) ^ 2 -
        (P1.x : ZMod q) * (P2.z : ZMod q) ^ 2) ≠ 0 := by
      intro hcon
      apply hxne
      unfold affX
      rw [div_eq_div_iff hz21 hz22]
      linear_combination -hcon
    have hsubB : ((P1.x : ZMod q) * (P2.z : ZMod q) ^ 2 -
        (P2.x : ZMod q) * (P1.z : ZMod q) ^ 2) ≠ 0 := by
      intro hcon
      apply hsubA
      linear_combination -hcon
    have hS : (((P1.x : ZMod q) * (P2.z : ZMod q) ^ 2 -
        (P2.x : ZMod q) * (P1.z : ZMod q) ^ 2) *
          ((P1.z : ZMod q) * (P2.z : ZMod q))) ≠ 0 :=
      mul_ne_zero hsubB (mul_ne_zero hzq1 hzq2)
    have hZg : (((P2.x : ZMod q) * (P1.z : ZMod q) ^ 2 -
        (P1.x : ZMod q) * (P2.z : ZMod q) ^ 2) *
          (P1.z : ZMod q) * (P2.z : ZMod q)) ≠ 0 :=
      mul_ne_zero (mul_ne_zero hsubA hzq1) hzq2
    have hsl : (curveW q c).slope (affX q P1) (affX q P2) (affY q P1)
        (affY q P2) =
        ((P1.y : ZMod q) * (P2.z : ZMod q) ^ 3 -
            (P2.y : ZMod q) * (P1.z : ZMod q) ^ 3) /
          (((P1.x : ZMod q) * (P2.z : ZMod q) ^ 2 -
              (P2.x : ZMod q) * (P1.z : ZMod q) ^ 2) *
            ((P1.z : ZMod q) * (P2.z : ZMod q))) := by
      rw [WeierstrassCurve.Affine.slope_of_X_ne hxne]
      unfold affX affY
      rw [div_eq_div_iff (sub_ne_zero.mpr (by
        intro hcon
        apply hxne
        unfold affX
        exact hcon)) hS]
      field_simp
      ring
    have hrG : 0 ≤ (addGen c P1 P2).x ∧ (addGen c P1 P2).x < c.p ∧
        0 ≤ (addGen c P1 P2).y ∧ (addGen c P1 P2).y < c.p ∧
        0 ≤ (addGen c P1 P2).z ∧ (addGen c P1 P2).z < c.p := by
      unfold addGen
      dsimp only
      exact ⟨normMod_nonneg _ hppos, normMod_lt _ hppos,
        normMod_nonneg _ hppos, normMod_lt _ hppos,
        Int.tmod_nonneg _ (mul_nonneg (mul_nonneg (normMod_nonneg _ hppos)
          hz01) hz02),
        Int.tmod_lt_of_pos _ hppos⟩
    have hgzq : (((addGen c P1 P2).z : Int) : ZMod q) ≠ 0 := by
      rw [hgz]
      exact hZg
    have haxc : affX q (addGen c P1 P2) =
        (curveW q c).addX (affX q P1) (affX q P2)
          ((curveW q c).slope (affX q P1) (affX q P2) (affY q P1)
            (affY q P2)) := by
      rw [WeierstrassCurve.Affine.addX, hsl]
      have ha2 : (curveW q c).a₂ = 0 := rfl
      have ha1 : (curveW q c).a₁ = 0 := rfl
      rw [ha1, ha2]
      simp only [zero_mul, sub_zero, add_zero, zero_add]
      show ((addGen c P1 P2).x : ZMod q) / ((addGen c P1 P2).z : ZMod q) ^ 2 = _
      rw [hgx, hgz]
      unfold affX
      rw [div_pow, div_sub_div _ _ (pow_ne_zero 2 hS) hz21,
        div_sub_div _ _ (mul_ne_zero (pow_ne_zero 2 hS) hz21) hz22,
        div_eq_div_iff (pow_ne_zero 2 hZg)
          (mul_ne_zero (mul_ne_zero (pow_ne_zero 2 hS) hz21) hz22)]
      ring
    have haxcfrac : (curveW q c).addX (affX q P1) (affX q P2)
        ((curveW q c).slope (affX q P1) (affX q P2) (affY q P1)
          (affY q P2)) =
        (((addGen c P1 P2).x : Int) : ZMod q) /
          ((((addGen c P1 P2).z : Int) : ZMod q)) ^ 2 := by
      rw [← haxc]
      rfl
    have hayc : affY q (addGen c P1 P2) =
        (curveW q c).addY (affX q P1) (affX q P2) (affY q P1)
          ((curveW q c).slope (affX q P1) (affX q P2) (affY q P1)
            (affY q P2)) := by
      rw [WeierstrassCurve.Affine.addY, curveW_negY,
        WeierstrassCurve.Affine.negAddY, haxcfrac, hsl, hgx, hgz]
      show ((addGen c P1 P2).y : ZMod q) / ((addGen c P1 P2).z : ZMod q) ^ 3 = _
      rw [hgy, hgx, hgz]
      unfold affX affY
      rw [div_sub_div _ _ (pow_ne_zero 2 hZg) hz21, div_mul_div_comm,
        div_add_div _ _ (mul_ne_zero hS (mul_ne_zero (pow_ne_zero 2 hZg) hz21))
          hz31,
        ← neg_div,
        div_eq_div_iff (pow_ne_zero 3 hZg)
          (mul_ne_zero (mul_ne_zero hS (mul_ne_zero (pow_ne_zero 2 hZg) hz21))
            hz31)]
      ring
    have hXadd : X1 + X2 = WeierstrassCurve.Affine.Point.some
        (WeierstrassCurve.Affine.nonsingular_add hns1 hns2
          fun h => (hxne h).elim) := by
      rw [hX1eq, hX2eq]
      exact WeierstrassCurve.Affine.Point.add_of_X_ne hxne
    refine Or.inr ⟨by omega, hrG.1, hrG.2.1, hrG.2.2.1, hrG.2.2.2.1,
      hrG.2.2.2.2.1, hrG.2.2.2.2.2, hgzq, ?_, ?_⟩
    · rw [haxc, hayc]
      exact WeierstrassCurve.Affine.nonsingular_add hns1 hns2
        fun h => (hxne h).elim
    · rw [hXadd]
      congr 1
      all_goals first
        | exact haxc.symm
        | exact hayc.symm

theorem represents_mulLoop (q : Nat) [hqf : Fact (Nat.Prime q)] (hq2 : q ≠ 2)
    (c : ECcurve) (hp : c.p = (q : Int))
    (htor : ∀ t : ZMod q, t ^ 3 + (c.a : ZMod q) * t + (c.b : ZMod q) ≠ 0)
    (fuel : Nat) : ∀ (m : Nat) (R Q : ECpoint)
    (XR XQ : (curveW q c).Point), m ≤ fuel →
    Represents q c R XR → Represents q c Q XQ →
    Represents q c (mulLoop c fuel R Q m) (XR + m • XQ) := by
  induction fuel with
  | zero =>
    intro m R Q XR XQ hm hR hQ
    obtain rfl : m = 0 := by omega
    rw [mulLoop_zero, zero_nsmul, add_zero]
    exact hR
  | succ fuel ih =>
    intro m R Q XR XQ hm hR hQ
    rcases Nat.eq_zero_or_pos m with rfl | hpos
    · rw [mulLoop_zero, zero_nsmul, add_zero]
      exact hR
    · rw [mulLoop_succ _ _ _ _ _ (by omega)]
      have hR' : Represents q c (if m % 2 = 1 then c.add R Q else R)
          (XR + (m % 2) • XQ) := by
        by_cases hodd : m % 2 = 1
        · rw [if_pos hodd, hodd, one_nsmul]
          exact represents_add q hq2 c hp htor R Q XR XQ hR hQ
        · rw [if_neg hodd, show m % 2 = 0 by omega, zero_nsmul, add_zero]
          exact hR
      have hQ' : Represents q c (if m / 2 ≠ 0 then c.double Q else Q)
          (if m / 2 ≠ 0 then XQ + XQ else XQ) := by
        by_cases hm2 : m / 2 ≠ 0
        · rw [if_pos hm2, if_pos hm2]
          exact represents_double q hq2 c hp htor Q XQ hQ
        · rw [if_neg hm2, if_neg hm2]
          exact hQ
      have hrec := ih (m / 2) _ _ _ _ (by omega) hR' hQ'
      have harith : XR + (m % 2) • XQ +
          (m / 2) • (if m / 2 ≠ 0 then XQ + XQ else XQ) = XR + m • XQ := by
        by_cases hm2 : m / 2 ≠ 0
        · rw [if_pos hm2, ← two_nsmul, smul_smul, add_assoc, ← add_nsmul,
            show m % 2 + m / 2 * 2 = m by omega]
        · rw [if_neg hm2, show m % 2 = m by omega]
          have hz0 : m / 2 = 0 := by omega
          rw [hz0, zero_nsmul, add_zero]
      rw [← harith]
      exact hrec

theorem represents_affineEq (q : Nat) [hqf : Fact (Nat.Prime q)]
    (c : ECcurve) (hp : c.p = (q : Int)) (P1 P2 : ECpoint)
    (X : (curveW q c).Point)
    (h1 : Represents q c P1 X) (h2 : Represents q c P2 X) :
    affineEq c P1 P2 := by
  have hppos : 0 < c.p := by rw [hp]; exact_mod_cast hqf.out.pos
  rcases h1 with ⟨rfl, hX1⟩ | ⟨hne1, hx01, hx11, hy01, hy11, hz01, hz11, hzq1, hns1, hX1eq⟩
  · rcases h2 with ⟨rfl, hX2⟩ | ⟨hne2, hx02, hx12, hy02, hy12, hz02, hz12, hzq2, hns2, hX2eq⟩
    · exact Or.inl ⟨rfl, rfl⟩
    · exfalso
      rw [hX1] at hX2eq
      exact WeierstrassCurve.Affine.Point.some_ne_zero hns2 hX2eq.symm
  · rcases h2 with ⟨rfl, hX2⟩ | ⟨hne2, hx02, hx12, hy02, hy12, hz02, hz12, hzq2, hns2, hX2eq⟩
    · exfalso
      rw [hX2] at hX1eq
      exact WeierstrassCurve.Affine.Point.some_ne_zero hns1 hX1eq.symm
    · have h12 := hX1eq.symm.trans hX2eq
      injection h12 with hx hy
      refine Or.inr ⟨hne1, hne2, ?_, ?_⟩
      · refine int_eq_of_zmod_eq (q := q) ?_
          (field_div_nonneg c _ _ hppos hx01) ?_
          (field_div_nonneg c _ _ hppos hx02) ?_
        · rw [get_x_cast q c hp P1 hz01 hzq1, get_x_cast q c hp P2 hz02 hzq2]
          exact hx
        · have := field_div_le c P1.x (modPow P1.z 2 c.p) hppos
          unfold ECcurve.get_x
          omega
        · have := field_div_le c P2.x (modPow P2.z 2 c.p) hppos
          unfold ECcurve.get_x
          omega
      · refine int_eq_of_zmod_eq (q := q) ?_
          (field_div_nonneg c _ _ hppos hy01) ?_
          (field_div_nonneg c _ _ hppos hy02) ?_
        · rw [get_y_cast q c hp P1 hz01 hzq1, get_y_cast q c hp P2 hz02 hzq2]
          exact hy
        · have := field_div_le c P1.y (modPow P1.z 3 c.p) hppos
          unfold ECcurve.get_y
          omega
        · have := field_div_le c P2.y (modPow P2.z 3 c.p) hppos
          unfold ECcurve.get_y
          omega

/-- C2: for a curve of odd prime modulus without two-torsion (the reference
curve qualifies) and a finite affine on-curve base point `G`, scalar
multiplication distributes over scalar addition through point addition: for
all non-negative `k1`, `k2` (in particular all `k1, k2 < n`),
`mul(G, k1 + k2)` and `add(mul(G, k1), mul(G, k2))` are equal as curve
points in affine coordinates, with the identity equal only to the
identity. -/
theorem mul_add_distributes (q : Nat) [hqf : Fact (Nat.Prime q)]
    (hq2 : q ≠ 2) (c : ECcurve) (hp : c.p = (q : Int)) (G : ECpoint)
    (hx0 : 0 ≤ G.x) (hx1 : G.x < c.p) (hy0 : 0 ≤ G.y) (hy1 : G.y < c.p)
    (hz : G.z = 1)
    (hcurve : (G.y : ZMod q) ^ 2 = (G.x : ZMod q) ^ 3 +
      (c.a : ZMod q) * (G.x : ZMod q) + (c.b : ZMod q))
    (htor : ∀ t : ZMod q, t ^ 3 + (c.a : ZMod q) * t + (c.b : ZMod q) ≠ 0)
    (k1 k2 : Nat) :
    affineEq c (c.mul G (k1 + k2)) (c.add (c.mul G k1) (c.mul G k2)) := by
  have hppos : 0 < c.p := by rw [hp]; exact_mod_cast hqf.out.pos
  have h2z : (2 : ZMod q) ≠ 0 := two_ne_zero_zmod q hq2
  have hq3 : 2 < q := by
    rcases Nat.lt_or_ge q 3 with h | h
    · interval_cases q
      · exact absurd rfl (Nat.Prime.ne_zero hqf.out)
      · exact absurd rfl (Nat.Prime.ne_one hqf.out)
      · exact absurd rfl hq2
    · omega
  have haffx : affX q G = (G.x : ZMod q) := by
    unfold affX
    rw [hz]
    push_cast
    simp
  have haffy : affY q G = (G.y : ZMod q) := by
    unfold affY
    rw [hz]
    push_cast
    simp
  have hGns : (curveW q c).Nonsingular (affX q G) (affY q G) := by
    rw [haffx, haffy]
    exact curveW_nonsingular q c _ _ ((curveW_equation_iff q c _ _).mpr hcurve)
      (on_curve_y_ne_zero q c htor _ _ hcurve) h2z
  have hGrep : Represents q c G (WeierstrassCurve.Affine.Point.some hGns) := by
    refine Or.inr ⟨by omega, hx0, hx1, hy0, hy1, by omega, ?_, ?_, hGns, rfl⟩
    · rw [hz, hp]
      have h1q : 1 < q := by omega
      exact_mod_cast h1q
    · rw [hz]
      push_cast
      exact one_ne_zero
  have hmulrep : ∀ k : Nat, Represents q c (c.mul G k)
      (k • (WeierstrassCurve.Affine.Point.some hGns)) := by
    intro k
    have := represents_mulLoop q hq2 c hp htor k k c.identity G 0
      (WeierstrassCurve.Affine.Point.some hGns) (Nat.le_refl k)
      (represents_identity q c) hGrep
    rwa [zero_add] at this
  have hlhs := hmulrep (k1 + k2)
  have hrhs := represents_add q hq2 c hp htor (c.mul G k1) (c.mul G k2) _ _
    (hmulrep k1) (hmulrep k2)
  rw [← add_nsmul] at hrhs
  exact represents_affineEq q c hp _ _ _ hlhs hrhs

/-- C2 witness: the theorem applied on the two-torsion-free curve
`y^2 = x^3 + x + 1` over `GF(5)` at the point `(0, 1)` with `k1 = 2`,
`k2 = 3`. -/
theorem mul_add_distributes_witness :
    affineEq (ECcurve.mk 5 1 1) ((ECcurve.mk 5 1 1).mul ⟨0, 1, 1⟩ (2 + 3))
      ((ECcurve.mk 5 1 1).add ((ECcurve.mk 5 1 1).mul ⟨0, 1, 1⟩ 2)
        ((ECcurve.mk 5 1 1).mul ⟨0, 1, 1⟩ 3)) :=
  @mul_add_distributes 5 (Fact.mk (by norm_num)) (by decide)
    (ECcurve.mk 5 1 1) (by decide) ⟨0, 1, 1⟩ (by decide) (by decide)
    (by decide) (by decide) (by decide) (by decide) (by decide) 2 3
